import Mathlib

/-!
Verification development for the digisurf waveform viewer core.

Strings from the Rust source are modelled as `List Char`.  Each definition
below is a direct translation of the Rust function it is named after
(`src/parsers/parse_fns.rs`, `src/parsers/types.rs`, `src/parsers/vcd.rs`,
`src/state.rs`, `src/app.rs`, `src/commands/zoom.rs`).  Machine integers
(`u64`, `usize`) are modelled as `Nat`; the places where Rust's checked
parsing can fail on overflow keep an explicit `< 2 ^ 64` bound.  Saturating
subtraction on `u64` coincides with `Nat` subtraction.
-/

/-! ## Basic character predicates -/

/-- A character is a binary digit `0`/`1` (`bin_str.chars().all(|c| c == '0' || c == '1')`). -/
def bin01 (c : Char) : Bool := c == '0' || c == '1'

/-- The 4-state logic primitive, `Value` in `src/parsers/types.rs`. -/
inductive Value where
  | V0 | V1 | VX | VZ
  deriving DecidableEq, Repr

/-- `WaveValue` from `src/parsers/types.rs`: a scalar or a bus payload string. -/
inductive WaveValue where
  | Binary (v : Value)
  | Bus (s : List Char)
  deriving DecidableEq, Repr

/-! ## `parse_binary_to_hex` (src/parsers/parse_fns.rs) -/

/-- `char::from_digit(v, 16)` for `v < 16`: `0`-`9` then lowercase `a`-`f`. -/
def fromDigit16 (v : Nat) : Char :=
  if v < 10 then Char.ofNat (48 + v) else Char.ofNat (97 + (v - 10))

/-- `char::to_ascii_uppercase`. -/
def toAsciiUpper (c : Char) : Char :=
  if 'a' ≤ c ∧ c ≤ 'z' then Char.ofNat (c.toNat - 32) else c

/-- One hex character of a nibble: `char::from_digit(value, 16).to_ascii_uppercase()`. -/
def hexChar (v : Nat) : Char := toAsciiUpper (fromDigit16 v)

/-- The fold `(acc << 1) | if bit == '1' { 1 } else { 0 }` over a chunk. -/
def nibbleVal (chunk : List Char) : Nat :=
  chunk.foldl (fun acc b => acc * 2 + (if b = '1' then 1 else 0)) 0

/-- `padded.chunks(4).map(...)`: successive groups of four bits to hex characters,
with a shorter final group folded the same way (after padding it is never hit). -/
def hexChunks : List Char → List Char
  | c1 :: c2 :: c3 :: c4 :: rest => hexChar (nibbleVal [c1, c2, c3, c4]) :: hexChunks rest
  | [] => []
  | rest => [hexChar (nibbleVal rest)]

/-- `parse_binary_to_hex` from `src/parsers/parse_fns.rs`; `none` models the
`nom` error on non-binary characters. -/
def parse_binary_to_hex (bin : List Char) : Option (List Char) :=
  if bin = [] then some []
  else if bin.all bin01 then
    let padding := (4 - bin.length % 4) % 4
    some (hexChunks (List.replicate padding '0' ++ bin))
  else none

/-! ## `format_string_as_binary` (src/parsers/types.rs) -/

/-- The characters accepted by the already-binary shortcut in `format_string_as_binary`. -/
def binLike (c : Char) : Bool :=
  c == '0' || c == '1' || c == 'x' || c == 'X' || c == 'z' || c == 'Z'

/-- Case mapping applied by the shortcut branch when `uppercase` is requested. -/
def binCaseUp (c : Char) : Char :=
  if c = 'x' then 'X' else if c = 'z' then 'Z' else c

/-- Case mapping applied by the shortcut branch when lowercase is requested. -/
def binCaseDown (c : Char) : Char :=
  if c = 'X' then 'x' else if c = 'Z' then 'z' else c

/-- `str::trim_start_matches` for a two-character pattern: repeatedly removes
the leading pair while it matches. -/
def trimPair (a b : Char) : List Char → List Char
  | x :: y :: rest => if x = a ∧ y = b then trimPair a b rest else x :: y :: rest
  | l => l

/-- Bit expansion of one character in the general path of `format_string_as_binary`
(hex digit to four bits, `x`/`z` to a single letter, anything else skipped). -/
def hexCharBits (uppercase : Bool) (c : Char) : List Char :=
  if c = '0' then ['0', '0', '0', '0']
  else if c = '1' then ['0', '0', '0', '1']
  else if c = '2' then ['0', '0', '1', '0']
  else if c = '3' then ['0', '0', '1', '1']
  else if c = '4' then ['0', '1', '0', '0']
  else if c = '5' then ['0', '1', '0', '1']
  else if c = '6' then ['0', '1', '1', '0']
  else if c = '7' then ['0', '1', '1', '1']
  else if c = '8' then ['1', '0', '0', '0']
  else if c = '9' then ['1', '0', '0', '1']
  else if c = 'a' ∨ c = 'A' then ['1', '0', '1', '0']
  else if c = 'b' ∨ c = 'B' then ['1', '0', '1', '1']
  else if c = 'c' ∨ c = 'C' then ['1', '1', '0', '0']
  else if c = 'd' ∨ c = 'D' then ['1', '1', '0', '1']
  else if c = 'e' ∨ c = 'E' then ['1', '1', '1', '0']
  else if c = 'f' ∨ c = 'F' then ['1', '1', '1', '1']
  else if c = 'x' ∨ c = 'X' then [if uppercase then 'X' else 'x']
  else if c = 'z' ∨ c = 'Z' then [if uppercase then 'Z' else 'z']
  else []

/-- The character-by-character expansion loop of `format_string_as_binary`. -/
def expandBits (uppercase : Bool) : List Char → List Char
  | [] => []
  | c :: rest => hexCharBits uppercase c ++ expandBits uppercase rest

/-- `WaveValue::format_string_as_binary` from `src/parsers/types.rs`. -/
def format_string_as_binary (s : List Char) (uppercase : Bool) : List Char :=
  if s.all binLike then
    if uppercase then s.map binCaseUp else s.map binCaseDown
  else
    let s := trimPair '0' 'X' (trimPair '0' 'x' s)
    let result := expandBits uppercase s
    let result := result.dropWhile (fun c => c == '0')
    if result = [] then ['0'] else result

/-! ## `format_string_as_decimal` (src/parsers/types.rs) -/

/-- The undefined-value characters `x`/`X`/`z`/`Z`. -/
def xzChar (c : Char) : Bool := c == 'x' || c == 'X' || c == 'z' || c == 'Z'

/-- An ASCII hexadecimal digit. -/
def isHexDigitChar (c : Char) : Bool :=
  ('0' ≤ c && c ≤ '9') || ('a' ≤ c && c ≤ 'f') || ('A' ≤ c && c ≤ 'F')

/-- Numeric value of an ASCII hexadecimal digit. -/
def hexDigitVal (c : Char) : Nat :=
  if '0' ≤ c ∧ c ≤ '9' then c.toNat - 48
  else if 'a' ≤ c ∧ c ≤ 'f' then c.toNat - 87
  else c.toNat - 55

/-- Value of a hexadecimal digit string. -/
def hexVal (l : List Char) : Nat := l.foldl (fun acc c => acc * 16 + hexDigitVal c) 0

/-- `u64::from_str_radix(s, 16)`: an optional `+` sign, then one or more hex
digits, failing on overflow past `2 ^ 64`. -/
def parseHexU64 (s : List Char) : Option Nat :=
  let digs := match s with
    | '+' :: rest => rest
    | other => other
  if digs ≠ [] ∧ digs.all isHexDigitChar ∧ hexVal digs < 2 ^ 64 then some (hexVal digs)
  else none

/-- The character map of the `x`/`z` fallback branch in `format_string_as_decimal`. -/
def normDec (uppercase : Bool) (c : Char) : Char :=
  if '0' ≤ c ∧ c ≤ '9' then c
  else if 'a' ≤ c ∧ c ≤ 'f' then c
  else if 'A' ≤ c ∧ c ≤ 'F' then c
  else if c = 'x' ∨ c = 'X' then (if uppercase then 'X' else 'x')
  else if c = 'z' ∨ c = 'Z' then (if uppercase then 'Z' else 'z')
  else c

/-- The chain of `trim_start_matches` calls at the top of `format_string_as_decimal`. -/
def trimDecPre (s : List Char) : List Char :=
  trimPair '0' 'd'
    (trimPair '0' 'O'
      (trimPair '0' 'o'
        (trimPair '0' 'B'
          (trimPair '0' 'b'
            (trimPair '0' 'X' (trimPair '0' 'x' s))))))

/-- `WaveValue::format_string_as_decimal` from `src/parsers/types.rs`. -/
def format_string_as_decimal (s : List Char) (uppercase : Bool) : List Char :=
  let s := trimDecPre s
  if !(s.any xzChar) then
    match parseHexU64 s with
    | some n => (Nat.repr n).toList
    | none => s.map (normDec uppercase)
  else s.map (normDec uppercase)

/-! ## Data model: `WaveformData` and the queried slice of `AppState` -/

/-- `WaveformData` from `src/parsers/types.rs`; the `HashMap` of change logs is
modelled as an association list. -/
structure WaveformData where
  signals : List (List Char)
  values : List (List Char × List (Nat × WaveValue))
  max_time : Nat
  deriving DecidableEq, Repr

/-- The slice of `AppState` (src/state.rs) that the parsing, query and
navigation operations read and write. -/
structure AppState where
  waveform_data : WaveformData
  displayed_signals : List (List Char)
  selected_signal : Nat
  time_start : Nat
  time_range : Nat
  deriving DecidableEq, Repr

/-- `HashMap::get` on the association-list model. -/
def lookupA {β : Type} : List (List Char × β) → List Char → Option β
  | [], _ => none
  | (k, v) :: rest, key => if k = key then some v else lookupA rest key

/-! ## Query engine (src/state.rs) -/

/-- The scan of `get_value_at_marker`: remember the last value seen, stop at the
first change strictly past the marker. -/
def valueAtLoop (marker : Nat) : List (Nat × WaveValue) → Option WaveValue → Option WaveValue
  | [], acc => acc
  | (t, v) :: rest, acc => if t > marker then acc else valueAtLoop marker rest (some v)

/-- `AppState::get_value_at_marker`. -/
def get_value_at_marker (st : AppState) (signal : List Char) (marker_time : Nat) :
    Option WaveValue :=
  match lookupA st.waveform_data.values signal with
  | some values => valueAtLoop marker_time values none
  | none => none

/-- `AppState::values_equal`. -/
def values_equal (v1 v2 : WaveValue) : Bool :=
  match v1, v2 with
  | .Binary b1, .Binary b2 => b1 == b2
  | .Bus s1, .Bus s2 => s1 == s2
  | _, _ => false

/-- Rust `{:?}` rendering of a `Value`. -/
def valueDebug : Value → List Char
  | .V0 => ['V', '0']
  | .V1 => ['V', '1']
  | .VX => ['V', 'X']
  | .VZ => ['V', 'Z']

/-- `AppState::format_transition`. -/
def format_transition (before after : WaveValue) : List Char :=
  match before, after with
  | .Binary v1, .Binary v2 => valueDebug v1 ++ ['-', '>'] ++ valueDebug v2
  | .Bus s1, .Bus s2 => s1 ++ ['-', '>'] ++ s2
  | _, _ => ['?', '?', '?']

/-- The indexed scan of `get_transition_at_marker`, carried out with the
previous entry's value in an accumulator. -/
def transScan (marker : Nat) : Option WaveValue → List (Nat × WaveValue) → Option (List Char)
  | _, [] => none
  | none, (_, v) :: rest => transScan marker (some v) rest
  | some pv, (t, v) :: rest =>
      if t = marker ∧ values_equal pv v = false then some (format_transition pv v)
      else transScan marker (some v) rest

/-- `AppState::get_transition_at_marker`. -/
def get_transition_at_marker (st : AppState) (signal : List Char) (marker_time : Nat) :
    Option (List Char) :=
  match lookupA st.waveform_data.values signal with
  | some values => transScan marker_time none values
  | none => none

/-- First scan of `get_visible_values`: the last change strictly before the
window, stopping at the first change at or past `time_start`. -/
def lastBeforeLoop (start : Nat) :
    List (Nat × WaveValue) → Option (Nat × WaveValue) → Option (Nat × WaveValue)
  | [], acc => acc
  | (t, v) :: rest, acc =>
      if t < start then lastBeforeLoop start rest (some (t, v)) else acc

/-- `AppState::get_visible_values`. -/
def get_visible_values (st : AppState) (signal : List Char) : List (Nat × WaveValue) :=
  if !(st.displayed_signals.contains signal) then []
  else
    match lookupA st.waveform_data.values signal with
    | some values =>
        let pre : List (Nat × WaveValue) :=
          match lastBeforeLoop st.time_start values none with
          | some (_, v) => [(st.time_start, v)]
          | none => []
        pre ++ values.filter (fun p => st.time_start ≤ p.1 && p.1 < st.time_start + st.time_range)
    | none => []

/-! ## View navigation (src/app.rs, `App::handle_normal_mode`) -/

/-- The four navigation inputs whose handlers touch the view window. -/
inductive NavOp where
  | panLeft | panRight | zoomIn | zoomOut
  deriving DecidableEq, Repr

/-- The `keybindings.left` branch of `handle_normal_mode`. -/
def panLeftOp (st : AppState) : AppState :=
  if st.time_start > 0 then
    { st with time_start := st.time_start - st.time_range / 4 }
  else st

/-- The `keybindings.right` branch of `handle_normal_mode`. -/
def panRightOp (st : AppState) : AppState :=
  if st.time_start < st.waveform_data.max_time then
    let max_start := st.waveform_data.max_time - st.time_range
    { st with time_start := min (st.time_start + st.time_range / 4) max_start }
  else st

/-- The `keybindings.zoom_out` branch of `handle_normal_mode`. -/
def zoomOutOp (st : AppState) : AppState :=
  let new_time_range := min (st.time_range * 2) st.waveform_data.max_time
  let center := st.time_start + st.time_range / 2
  let half_new_range := new_time_range / 2
  let new_start := if center > half_new_range then center - half_new_range else 0
  let adjusted_start :=
    if new_start + new_time_range > st.waveform_data.max_time then
      st.waveform_data.max_time - new_time_range
    else new_start
  { st with time_start := adjusted_start, time_range := new_time_range }

/-- The `keybindings.zoom_in` branch of `handle_normal_mode`. -/
def zoomInOp (st : AppState) : AppState :=
  let center := st.time_start + st.time_range / 2
  let new_time_range := max (st.time_range / 2) 10
  let half_new_range := new_time_range / 2
  let new_start := center - half_new_range
  { st with time_start := new_start, time_range := new_time_range }

/-- Dispatch of one navigation input. -/
def navStep : NavOp → AppState → AppState
  | .panLeft, st => panLeftOp st
  | .panRight, st => panRightOp st
  | .zoomIn, st => zoomInOp st
  | .zoomOut, st => zoomOutOp st

/-- A finite sequence of navigation inputs, applied in order. -/
def navRun (ops : List NavOp) (st : AppState) : AppState :=
  ops.foldl (fun s op => navStep op s) st

/-- The zoom/pan bounds invariant of the view window. -/
def viewInv (st : AppState) : Prop :=
  10 ≤ st.time_range ∧ st.time_start + st.time_range ≤ st.waveform_data.max_time

/-! ## The `zoom` command (src/commands/zoom.rs) -/

/-- Decimal digit test. -/
def isDecDigit (c : Char) : Bool := '0' ≤ c && c ≤ '9'

/-- Value of a decimal digit string. -/
def decVal (l : List Char) : Nat := l.foldl (fun acc c => acc * 10 + (c.toNat - 48)) 0

/-- `str::parse::<u64>`: an optional `+` sign, then one or more decimal digits,
failing on overflow past `2 ^ 64`. -/
def parseU64 (s : List Char) : Option Nat :=
  let digs := match s with
    | '+' :: rest => rest
    | other => other
  if digs ≠ [] ∧ digs.all isDecDigit ∧ decVal digs < 2 ^ 64 then some (decVal digs)
  else none

/-- The `zoom` command handler from `src/commands/zoom.rs`: returns the updated
state together with the `Ok`/`Err` message. -/
def zoom_execute (args : List (List Char)) (st : AppState) :
    AppState × Except (List Char) (List Char) :=
  match args with
  | [] => (st, .error ("Usage: zoom <factor>".toList))
  | a0 :: _ =>
      match parseU64 a0 with
      | some factor =>
          if factor > 0 then
            let center := st.time_start + st.time_range / 2
            let new_range := st.waveform_data.max_time / factor
            let half_new_range := new_range / 2
            let new_start := if center > half_new_range then center - half_new_range else 0
            ({ st with time_start := new_start, time_range := new_range },
              .ok (("Zoomed to 1/".toList) ++ (Nat.repr factor).toList))
          else (st, .error ("Invalid zoom factor".toList))
      | none => (st, .error ("Invalid zoom factor".toList))

/-! ## VCD parser (src/parsers/vcd.rs) -/

/-- The `nom` `multispace` character class: space, tab, newline, carriage return. -/
def wsChar4 (c : Char) : Bool := c == ' ' || c == '\t' || c == '\n' || c == '\r'

/-- Membership in `VCD_IDENTIFIER_CHARS` (printable ASCII without space and
backslash). -/
def vcdIdChar (c : Char) : Bool := 33 ≤ c.toNat && c.toNat ≤ 126 && c.toNat != 92

/-- The bus digit class `"01xXzZ"`. -/
def busBitChar (c : Char) : Bool := bin01 c || xzChar c

/-- The real-literal class `"0123456789.eE+-"`. -/
def realChar (c : Char) : Bool :=
  isDecDigit c || c == '.' || c == 'e' || c == 'E' || c == '+' || c == '-'

/-- `str::trim` (ASCII whitespace on both ends). -/
def trimChars (l : List Char) : List Char :=
  ((l.dropWhile Char.isWhitespace).reverse.dropWhile Char.isWhitespace).reverse

/-- Whether `pat` is an initial segment of `l` (`str::starts_with` / `nom::tag`). -/
def leadsWith : List Char → List Char → Bool
  | [], _ => true
  | _ :: _, [] => false
  | a :: as, b :: bs => a == b && leadsWith as bs

/-- `nom::tag pat`: consume the pattern or fail. -/
def stripTag (pat l : List Char) : Option (List Char) :=
  if leadsWith pat l then some (l.drop pat.length) else none

/-- `take_while1 p`: one or more characters satisfying `p`, returned with the rest. -/
def takeWhile1 (p : Char → Bool) (l : List Char) : Option (List Char × List Char) :=
  let pre := l.takeWhile p
  if pre = [] then none else some (pre, l.drop pre.length)

/-- `nom::multispace1`. -/
def multispace1 (l : List Char) : Option (List Char) :=
  match takeWhile1 wsChar4 l with
  | some (_, rest) => some rest
  | none => none

/-- `nom::multispace0`. -/
def multispace0 (l : List Char) : List Char := l.dropWhile wsChar4

/-- `take_until "$end"`: drop up to (but not including) the first occurrence of
`$end`, failing when there is none. -/
def dropUntilEnd (l : List Char) : Option (List Char) :=
  match l with
  | [] => none
  | c :: t => if leadsWith ("$end".toList) (c :: t) then some (c :: t) else dropUntilEnd t

/-- `VarDef` from `src/parsers/vcd.rs`. -/
structure VarDef where
  id : List Char
  name : List Char
  width : Nat
  var_type : List Char
  deriving DecidableEq, Repr

/-- `parse_scope_declaration` from `src/parsers/vcd.rs`. -/
def parse_scope_declaration (input : List Char) : Option (List Char) := do
  let input ← stripTag ("$scope".toList) input
  let input ← multispace1 input
  let (_, input) ← takeWhile1 (fun c => !(c == ' ' || c == '\t' || c == '\n')) input
  let input ← multispace1 input
  let (name, input) ← takeWhile1 (fun c => !(c.isWhitespace || c == '$')) input
  let input ← dropUntilEnd input
  let _ ← stripTag ("$end".toList) input
  some name

/-- `parse_var_declaration` from `src/parsers/vcd.rs`; the identifier is a
single `VCD_IDENTIFIER_CHARS` character (`recognize(one_of(..))`). -/
def parse_var_declaration (input : List Char) : Option VarDef := do
  let input ← stripTag ("$var".toList) input
  let input ← multispace1 input
  let (ty, input) ← takeWhile1 (fun c => !(c == ' ' || c == '\t' || c == '\n')) input
  let input ← multispace1 input
  let (ds, input) ← takeWhile1 isDecDigit input
  let width ← if decVal ds < 2 ^ 64 then some (decVal ds) else none
  let input ← multispace1 input
  match input with
  | [] => none
  | c :: input =>
      if vcdIdChar c then do
        let input ← multispace1 input
        let (name, input) ← takeWhile1 (fun c => !(c.isWhitespace || c == '$')) input
        let input ← dropUntilEnd input
        let _ ← stripTag ("$end".toList) input
        some { id := [c], name := name, width := width, var_type := ty }
      else none

/-- `parse_time_stamp` from `src/parsers/vcd.rs` (the caller discards the rest). -/
def parse_time_stamp (input : List Char) : Option Nat :=
  match input with
  | '#' :: rest => do
      let (ds, _) ← takeWhile1 isDecDigit rest
      if decVal ds < 2 ^ 64 then some (decVal ds) else none
  | _ => none

/-- The single-logic-value alternative of `parse_value_change`. -/
def logicOf (c : Char) : Option Value :=
  if c = '0' then some .V0
  else if c = '1' then some .V1
  else if c = 'x' ∨ c = 'X' then some .VX
  else if c = 'z' ∨ c = 'Z' then some .VZ
  else none

/-- `parse_value_change` from `src/parsers/vcd.rs`: scalar, vector (`b`/`B`),
or real (`r`/`R`) change, returning the value and the identifier. -/
def parse_value_change (input : List Char) : Option (WaveValue × List Char) :=
  let scalar : Option (WaveValue × List Char) :=
    match input with
    | [] => none
    | c :: rest => do
        let v ← logicOf c
        let (id, _) ← takeWhile1 vcdIdChar rest
        some (.Binary v, id)
  let vector : Option (WaveValue × List Char) :=
    match input with
    | c :: rest =>
        if c = 'b' ∨ c = 'B' then do
          let (bits, rest) ← takeWhile1 busBitChar rest
          let rest := multispace0 rest
          let (id, _) ← takeWhile1 vcdIdChar rest
          some (.Bus bits, id)
        else none
    | [] => none
  let real : Option (WaveValue × List Char) :=
    match input with
    | c :: rest =>
        if c = 'r' ∨ c = 'R' then do
          let (lit, rest) ← takeWhile1 realChar rest
          let rest := multispace0 rest
          let (id, _) ← takeWhile1 vcdIdChar rest
          some (.Bus ('r' :: lit), id)
        else none
    | [] => none
  scalar <|> vector <|> real

/-- `IndexMap::insert`: replace in place when the key exists, else append. -/
def imInsert {β : Type} (k : List Char) (v : β) :
    List (List Char × β) → List (List Char × β)
  | [] => [(k, v)]
  | (k0, v0) :: rest => if k0 = k then (k0, v) :: rest else (k0, v0) :: imInsert k v rest

/-- `values.entry(name).or_insert_with(Vec::new).push(tv)`. -/
def pushValue (k : List Char) (tv : Nat × WaveValue) :
    List (List Char × List (Nat × WaveValue)) → List (List Char × List (Nat × WaveValue))
  | [] => [(k, [tv])]
  | (k0, vs) :: rest => if k0 = k then (k0, vs ++ [tv]) :: rest else (k0, vs) :: pushValue k tv rest

/-- The hierarchical name built from the scope stack: each scope followed by a
dot, then the variable name. -/
def fullName (scope : List (List Char)) (name : List Char) : List Char :=
  match scope with
  | [] => name
  | s :: rest => s ++ '.' :: fullName rest name

/-- The mutable locals of the `parse_vcd_file` loop. -/
structure ParserState where
  var_defs : List (List Char × VarDef)
  id_to_name : List (List Char × List Char)
  current_time : Nat
  values : List (List Char × List (Nat × WaveValue))
  in_definitions : Bool
  in_dumpvars : Bool
  current_scope : List (List Char)
  deriving DecidableEq, Repr

/-- Initial loop state of `parse_vcd_file`. -/
def initParserState : ParserState :=
  { var_defs := [], id_to_name := [], current_time := 0, values := [],
    in_definitions := true, in_dumpvars := false, current_scope := [] }

/-- One iteration of the `for line in reader.lines()` loop of `parse_vcd_file`. -/
def processLine (st : ParserState) (rawLine : List Char) : ParserState :=
  let line := trimChars rawLine
  if leadsWith ("$var".toList) line then
    match parse_var_declaration line with
    | some vd =>
        { st with var_defs := imInsert vd.id vd st.var_defs,
                  id_to_name := imInsert vd.id (fullName st.current_scope vd.name) st.id_to_name }
    | none => st
  else if leadsWith ("$scope".toList) line then
    match parse_scope_declaration line with
    | some name => { st with current_scope := st.current_scope ++ [name] }
    | none => st
  else if leadsWith ("$upscope".toList) line then
    if st.current_scope ≠ [] then { st with current_scope := st.current_scope.dropLast } else st
  else if leadsWith ("$enddefinitions".toList) line then
    { st with in_definitions := false }
  else if leadsWith ("$dumpvars".toList) line then
    { st with in_dumpvars := true }
  else if leadsWith ("$end".toList) line && st.in_dumpvars then
    { st with in_dumpvars := false }
  else if !st.in_definitions && leadsWith ['#'] line then
    match parse_time_stamp line with
    | some t => { st with current_time := t }
    | none => st
  else if !st.in_definitions && !line.isEmpty && !(leadsWith ['$'] line) then
    match parse_value_change line with
    | some (wv, id) =>
        match lookupA st.id_to_name id with
        | some signal_name =>
            { st with values := pushValue signal_name (st.current_time, wv) st.values }
        | none => st
    | none => st
  else st

/-- The post-pass of `parse_vcd_file`: hex-canonicalize fully defined bus values. -/
def canonicalizeValue (v : WaveValue) : WaveValue :=
  match v with
  | .Bus s =>
      if s.all bin01 then
        match parse_binary_to_hex s with
        | some hex => .Bus hex
        | none => .Bus s
      else .Bus s
  | other => other

/-- `parse_vcd_file` over the line stream (I/O handled by the caller model). -/
def parse_vcd_file (lines : List (List Char)) : WaveformData :=
  let st := lines.foldl processLine initParserState
  { signals := st.id_to_name.map (fun kv => kv.2),
    values := st.values.map (fun kv =>
      (kv.1, kv.2.map (fun tv => (tv.1, canonicalizeValue tv.2)))),
    max_time := st.current_time }

/-! ## `App::load_vcd_file` (src/app.rs) -/

/-- `App::load_vcd_file`: the state clears its signal list, change-log map and
displayed-signal selection, then parses; an I/O failure (`File::open`) is
surfaced after the clearing has already happened. -/
def load_vcd_file (st : AppState) (input : Except Unit (List (List Char))) :
    AppState × Except Unit Unit :=
  let st := { st with
    waveform_data := { st.waveform_data with signals := [], values := [] },
    displayed_signals := [] }
  match input with
  | .error e => (st, .error e)
  | .ok lines =>
      let wd := parse_vcd_file lines
      ({ st with
          waveform_data := { signals := wd.signals, values := wd.values, max_time := wd.max_time },
          time_start := 0, time_range := wd.max_time, selected_signal := 0 },
        .ok ())

/-! ## Specification-side definitions used by the theorems -/

/-- An uppercase hexadecimal output digit (`0`-`9`, `A`-`F`). -/
def hexDigitUp (c : Char) : Bool := isDecDigit c || ('A' ≤ c && c ≤ 'F')

/-- Spec wording: the list of timestamp values of the `#<digits>` lines the
parser processes in the body (after the `$enddefinitions` line), in file
order. -/
def bodyTimestamps (inDefs : Bool) : List (List Char) → List Nat
  | [] => []
  | l :: rest =>
      let line := trimChars l
      if leadsWith ("$enddefinitions".toList) line then bodyTimestamps false rest
      else if !inDefs && leadsWith ['#'] line then
        match parse_time_stamp line with
        | some tv => tv :: bodyTimestamps inDefs rest
        | none => bodyTimestamps inDefs rest
      else bodyTimestamps inDefs rest

/-- Spec wording for claim C7: one uppercase hex digit per value `0`-`15`. -/
def specHexDigit (n : Nat) : Char :=
  (['0', '1', '2', '3', '4', '5', '6', '7', '8', '9', 'A', 'B', 'C', 'D', 'E', 'F']).getD n '0'

/-- Spec wording: the numeric value of one bit character. -/
def specBit (c : Char) : Nat := if c = '1' then 1 else 0

/-- Spec wording: map each 4-bit group, MSB first, to one uppercase hex digit. -/
def specGroups : List Char → List Char
  | c1 :: c2 :: c3 :: c4 :: rest =>
      specHexDigit (8 * specBit c1 + 4 * specBit c2 + 2 * specBit c3 + specBit c4) ::
        specGroups rest
  | _ => []

/-- Spec wording: left-pad with `0` to the next multiple of 4 bits, then map
each 4-bit group to one uppercase hex digit. -/
def specHexCanon (s : List Char) : List Char :=
  specGroups (List.replicate ((4 - s.length % 4) % 4) '0' ++ s)

/-- Spec wording: the last change of a log with time strictly before `start`. -/
def lastChangeBefore (start : Nat) (vs : List (Nat × WaveValue)) : Option (Nat × WaveValue) :=
  (vs.filter (fun p => p.1 < start)).getLast?

/-- Whether a line would re-register an already-registered identifier under a
different full hierarchical name in the given parser state. -/
def lineRenames (st : ParserState) (rawLine : List Char) : Bool :=
  let line := trimChars rawLine
  if leadsWith ("$var".toList) line then
    match parse_var_declaration line with
    | some vd =>
        match lookupA st.id_to_name vd.id with
        | some old => old ≠ fullName st.current_scope vd.name
        | none => false
    | none => false
  else false

/-- No line of the input re-registers an identifier under a different name
(checked by replaying the parse loop). -/
def checkNoRename (st : ParserState) : List (List Char) → Bool
  | [] => true
  | l :: rest => !(lineRenames st l) && checkNoRename (processLine st l) rest

/-! ## Concrete states and inputs used as counterexamples and witnesses -/

/-- A loaded state with one signal, used to exhibit the clearing behaviour of
`load_vcd_file` on an I/O error. -/
def loadedState : AppState :=
  { waveform_data :=
      { signals := [("s".toList)],
        values := [(("s".toList), [(0, .Binary .V0)])],
        max_time := 42 },
    displayed_signals := [("s".toList)], selected_signal := 0,
    time_start := 5, time_range := 10 }

/-- View state near the right edge, used against the `zoom` command. -/
def zoomEdgeState : AppState :=
  { waveform_data := { signals := [], values := [], max_time := 1000 },
    displayed_signals := [], selected_signal := 0,
    time_start := 900, time_range := 100 }

/-- View state from the Rust `zoom` unit test. -/
def zoomTestState : AppState :=
  { waveform_data := { signals := [], values := [], max_time := 1000 },
    displayed_signals := [], selected_signal := 0,
    time_start := 200, time_range := 200 }

/-- A signal with a change exactly at the window start, used against the
carry-forward claim. -/
def carryEdgeState : AppState :=
  { waveform_data :=
      { signals := [("sig1".toList)],
        values := [(("sig1".toList), [(0, .Binary .V0), (10, .Binary .V1)])],
        max_time := 50 },
    displayed_signals := [("sig1".toList)], selected_signal := 0,
    time_start := 10, time_range := 20 }

/-- A signal whose changes all avoid the window start, used as carry-forward
witness data. -/
def carryOkState : AppState :=
  { waveform_data :=
      { signals := [("sig1".toList)],
        values := [(("sig1".toList), [(0, .Binary .V0), (20, .Binary .V1)])],
        max_time := 50 },
    displayed_signals := [("sig1".toList)], selected_signal := 0,
    time_start := 10, time_range := 20 }

/-- The change log of the `transition_at` example in the spec. -/
def clkState : AppState :=
  { waveform_data :=
      { signals := [("clk".toList)],
        values := [(("clk".toList),
          [(0, .Binary .V0), (10, .Binary .V1), (20, .Binary .V0)])],
        max_time := 50 },
    displayed_signals := [("clk".toList)], selected_signal := 0,
    time_start := 0, time_range := 50 }

/-- Body timestamps out of order: the maximum (10) precedes the last (5). -/
def outOfOrderLines : List (List Char) :=
  [("$enddefinitions $end".toList), ("#10".toList), ("#5".toList)]

/-- An identifier re-registered under a new name after a change was recorded. -/
def renameLines : List (List Char) :=
  [("$var wire 1 ! a $end".toList), ("$enddefinitions $end".toList),
   ("0!".toList), ("$var wire 1 ! b $end".toList)]

/-- A well-behaved input: one declaration, one change. -/
def plainLines : List (List Char) :=
  [("$scope module top $end".toList), ("$var wire 1 ! a $end".toList),
   ("$upscope $end".toList), ("$enddefinitions $end".toList),
   ("#3".toList), ("1!".toList)]

/-! ## Claim C1: atomicity of `load_vcd_file` on I/O failure -/

/-- C1 counterexample: on an I/O error the previously loaded signal list (and
change-log map and displayed selection) is *not* left as it was — it has been
cleared before the parse was attempted. -/
theorem load_vcd_file_clears_on_error_cex :
    (load_vcd_file loadedState (.error ())).1.waveform_data.signals = [] ∧
    (load_vcd_file loadedState (.error ())).1.waveform_data.signals ≠
      loadedState.waveform_data.signals ∧
    (load_vcd_file loadedState (.error ())).1.displayed_signals ≠
      loadedState.displayed_signals ∧
    (load_vcd_file loadedState (.error ())).1.waveform_data.values ≠
      loadedState.waveform_data.values := by
  refine ⟨rfl, by decide, by decide, by decide⟩

/-- C1 (amended): when the load fails with an I/O error the error is surfaced,
but the signal list, change-log map and displayed-signal selection have already
been cleared; only `max_time`, the view window and the selected index keep
their previous values. -/
theorem load_vcd_file_io_error_spec (st : AppState) :
    (load_vcd_file st (.error ())).2 = .error () ∧
    (load_vcd_file st (.error ())).1.waveform_data.signals = [] ∧
    (load_vcd_file st (.error ())).1.waveform_data.values = [] ∧
    (load_vcd_file st (.error ())).1.displayed_signals = [] ∧
    (load_vcd_file st (.error ())).1.waveform_data.max_time = st.waveform_data.max_time ∧
    (load_vcd_file st (.error ())).1.time_start = st.time_start ∧
    (load_vcd_file st (.error ())).1.time_range = st.time_range ∧
    (load_vcd_file st (.error ())).1.selected_signal = st.selected_signal :=
  ⟨rfl, rfl, rfl, rfl, rfl, rfl, rfl, rfl⟩

/-! ## Claim C5: the `zoom <factor>` command -/

/-- C5 counterexample: `zoom 1` from `(time_start, time_range, max_time) =
(900, 100, 1000)` produces `time_start = 450`, `time_range = 1000`, violating
the claimed clamp `time_start + time_range ≤ max_time`. -/
theorem zoom_command_unclamped_cex :
    (zoom_execute [['1']] zoomEdgeState).1.time_start = 450 ∧
    (zoom_execute [['1']] zoomEdgeState).1.time_range = 1000 ∧
    ¬((zoom_execute [['1']] zoomEdgeState).1.time_start +
        (zoom_execute [['1']] zoomEdgeState).1.time_range ≤
        (zoom_execute [['1']] zoomEdgeState).1.waveform_data.max_time) := by
  refine ⟨by decide, by decide, by decide⟩

/-- C5 (amended): for a parsable factor `n > 0` the command sets `time_range`
to `max_time / n` and recenters with only a lower clamp at `0` (no upper
clamp, so the window may extend past `max_time`); an empty argument list, an
unparsable factor or a zero factor yields a descriptive error and leaves the
state unchanged. -/
theorem zoom_command_spec (st : AppState) (a : List Char) (rest : List (List Char)) (n : Nat)
    (hp : parseU64 a = some n) (hn : 0 < n) :
    zoom_execute (a :: rest) st =
      ({ st with
          time_range := st.waveform_data.max_time / n,
          time_start :=
            if st.time_start + st.time_range / 2 > st.waveform_data.max_time / n / 2 then
              st.time_start + st.time_range / 2 - st.waveform_data.max_time / n / 2
            else 0 },
        .ok (("Zoomed to 1/".toList) ++ (Nat.repr n).toList)) ∧
    zoom_execute [] st = (st, .error ("Usage: zoom <factor>".toList)) ∧
    (∀ b rs, parseU64 b = none →
      zoom_execute (b :: rs) st = (st, .error ("Invalid zoom factor".toList))) ∧
    (∀ b rs, parseU64 b = some 0 →
      zoom_execute (b :: rs) st = (st, .error ("Invalid zoom factor".toList))) := by
  refine ⟨?_, rfl, ?_, ?_⟩
  · simp only [zoom_execute, hp]
    rw [if_pos hn]
  · intro b rs hb
    simp only [zoom_execute, hb]
  · intro b rs hb
    simp only [zoom_execute, hb]
    rfl

/-- C5 witness: the Rust unit-test scenario, `zoom 2` from
`(200, 200, 1000)`. -/
theorem zoom_command_spec_witness :
    parseU64 ['2'] = some 2 ∧ 0 < 2 ∧
    (zoom_execute [['2']] zoomTestState).1.time_start = 50 ∧
    (zoom_execute [['2']] zoomTestState).1.time_range = 500 := by
  have h := (zoom_command_spec zoomTestState ['2'] [] 2 (by decide) (by decide)).1
  refine ⟨by decide, by decide, ?_, ?_⟩ <;> rw [h] <;> decide

/-! ## Claim C9: decimal rendering of bus values -/

/-- C9 counterexample: a stored string containing an uppercase `X` is not
emitted unchanged by the decimal fallback — the `x` is case-normalized. -/
theorem decimal_xz_not_verbatim_cex :
    format_string_as_decimal ("1X".toList) false = ("1x".toList) ∧
    format_string_as_decimal ("1X".toList) false ≠ ("1X".toList) := by
  refine ⟨by decide, by decide⟩

/-- C9 (amended): decimal rendering first strips every repeated
`0x`/`0X`/`0b`/`0B`/`0o`/`0O`/`0d` prefix from the stored string and then
works on the trimmed remainder: when the trimmed string has no `x`/`z` and
parses as an unsigned 64-bit hexadecimal integer, the output is that integer
in base 10 (so stored `"0B1A"` renders `"26"`, not `"2842"`, and raw bits
`"0x1"` render `"1"`); when the trimmed string contains `x`/`z`, the output is
the trimmed string with each `x`/`z` case-normalized to the requested case and
every other character unchanged — never the source characters verbatim. -/
theorem decimal_render_spec (s : List Char) (u : Bool) :
    (((trimDecPre s).any xzChar) = false → ∀ n, parseHexU64 (trimDecPre s) = some n →
      format_string_as_decimal s u = (Nat.repr n).toList) ∧
    (((trimDecPre s).any xzChar) = true →
      format_string_as_decimal s u = (trimDecPre s).map (normDec u)) := by
  constructor
  · intro hxz n hp
    simp only [format_string_as_decimal, hxz, hp]
    rfl
  · intro hxz
    simp only [format_string_as_decimal, hxz]
    rfl

/-- C9 witness: the prefix trim is observable — stored `"0B1A"` renders `"26"`
(the `0B` pair is stripped before hex parsing) and stored `"0x1"` renders
`"1"`; `"3x"` keeps its (already lowercase) characters. -/
theorem decimal_render_spec_witness :
    format_string_as_decimal ("0B1A".toList) false = ['2', '6'] ∧
    format_string_as_decimal ("0x1".toList) false = ['1'] ∧
    format_string_as_decimal ("3x".toList) false = ("3x".toList) := by
  have h1 := (decimal_render_spec ("0B1A".toList) false).1 (by decide) 26 (by decide)
  have h2 := (decimal_render_spec ("0x1".toList) false).1 (by decide) 1 (by decide)
  have h3 := (decimal_render_spec ("3x".toList) false).2 (by decide)
  refine ⟨by rw [h1]; decide, by rw [h2]; decide, by rw [h3]; decide⟩

/-! ## Counterexamples for claims C2, C3, C4, C10 -/

/-- C2 counterexample: with body timestamps `#10` then `#5`, the parser
returns `max_time = 5` (the last timestamp), not the maximum `10`. -/
theorem parse_vcd_max_time_not_max_cex :
    (parse_vcd_file outOfOrderLines).max_time = 5 ∧
    bodyTimestamps true outOfOrderLines = [10, 5] ∧
    (parse_vcd_file outOfOrderLines).max_time <
      (bodyTimestamps true outOfOrderLines).foldr max 0 := by
  refine ⟨by decide, by decide, by decide⟩

/-- C3 counterexample: with log `[(0, V0), (10, V1)]` and window start `10`,
the first visible entry carries the value `V0` of the last change strictly
before the window, while `value_at(signal, 10) = V1`. -/
theorem visible_values_first_entry_cex :
    get_visible_values carryEdgeState ("sig1".toList) =
      [(10, .Binary .V0), (10, .Binary .V1)] ∧
    get_value_at_marker carryEdgeState ("sig1".toList) 10 = some (.Binary .V1) ∧
    (get_visible_values carryEdgeState ("sig1".toList)).head?.map Prod.snd ≠
      some (.Binary .V1) := by
  refine ⟨by decide, by decide, by decide⟩

/-- C4 counterexample: `"1"` canonicalizes to hex `"1"`, and the binary
renderer passes `"1"` through unchanged instead of expanding it to `"0001"`. -/
theorem bin_hex_roundtrip_cex :
    parse_binary_to_hex ['1'] = some ['1'] ∧
    format_string_as_binary ['1'] false = ['1'] ∧
    format_string_as_binary ['1'] false ≠ ['0', '0', '0', '1'] := by
  refine ⟨by decide, by decide, by decide⟩

/-- C10 counterexample: after `$enddefinitions`, re-registering identifier `!`
under the name `b` leaves the change recorded for `a` in the change-log map
while the signals list only contains `b`. -/
theorem changelog_keys_cex :
    (parse_vcd_file renameLines).values.map Prod.fst = [("a".toList)] ∧
    (parse_vcd_file renameLines).signals = [("b".toList)] ∧
    ¬(("a".toList) ∈ (parse_vcd_file renameLines).signals) := by
  refine ⟨by decide, by decide, by decide⟩

/-! ## Claim C6: zoom/pan bounds invariant -/

/-- Navigation inputs never touch the loaded waveform data. -/
theorem navStep_waveform (op : NavOp) (st : AppState) :
    (navStep op st).waveform_data = st.waveform_data := by
  cases op <;> simp only [navStep, panLeftOp, panRightOp, zoomInOp, zoomOutOp] <;>
    (first | rfl | (split <;> rfl))

/-- One navigation input preserves the bounds invariant. -/
theorem navStep_inv (op : NavOp) (st : AppState) (hm : 10 ≤ st.waveform_data.max_time)
    (h : viewInv st) : viewInv (navStep op st) := by
  obtain ⟨h1, h2⟩ := h
  cases op
  case panLeft =>
    simp only [navStep, panLeftOp, viewInv]
    split
    · exact ⟨h1, by simp; omega⟩
    · exact ⟨h1, h2⟩
  case panRight =>
    simp only [navStep, panRightOp, viewInv]
    split
    · refine ⟨h1, ?_⟩
      simp [Nat.min_def]
      split <;> omega
    · exact ⟨h1, h2⟩
  case zoomIn =>
    simp only [navStep, zoomInOp, viewInv]
    refine ⟨by simp [Nat.max_def]; split <;> omega, ?_⟩
    simp [Nat.max_def]
    split <;> omega
  case zoomOut =>
    simp only [navStep, zoomOutOp, viewInv]
    refine ⟨?_, ?_⟩
    · simp [Nat.min_def]
      split <;> omega
    · simp [Nat.min_def, Nat.max_def]
      split_ifs <;> omega

/-- C6: starting from a view window with `10 ≤ time_range` and
`time_start + time_range ≤ max_time`, where `max_time ≥ 10`, every finite
sequence of zoom-in / zoom-out / pan-left / pan-right inputs keeps
`10 ≤ time_range` and `time_start + time_range ≤ max_time`. -/
theorem nav_bounds_invariant (ops : List NavOp) (st : AppState)
    (hm : 10 ≤ st.waveform_data.max_time) (h : viewInv st) : viewInv (navRun ops st) := by
  induction ops generalizing st with
  | nil => exact h
  | cons op rest ih =>
      have hw := navStep_waveform op st
      have hm2 : 10 ≤ (navStep op st).waveform_data.max_time := by rw [hw]; exact hm
      exact ih (navStep op st) hm2 (navStep_inv op st hm h)

/-- C6 witness: a concrete three-step navigation sequence from a valid state. -/
theorem nav_bounds_invariant_witness :
    10 ≤ zoomTestState.waveform_data.max_time ∧ viewInv zoomTestState ∧
    viewInv (navRun [NavOp.zoomIn, NavOp.panRight, NavOp.zoomOut, NavOp.panLeft] zoomTestState) :=
  ⟨by decide, ⟨by decide, by decide⟩,
    nav_bounds_invariant [NavOp.zoomIn, NavOp.panRight, NavOp.zoomOut, NavOp.panLeft]
      zoomTestState (by decide) ⟨by decide, by decide⟩⟩

/-! ## Claim C7: post-pass hex canonicalization -/

/-- A character satisfying `bin01` is `'0'` or `'1'`. -/
theorem bin01_cases (c : Char) (h : bin01 c = true) : c = '0' ∨ c = '1' := by
  simpa [bin01] using h

/-- On one 4-bit group of binary digits, the implementation's fold-and-format
agrees with the spec's MSB-first nibble value and uppercase digit table. -/
theorem hexChar_nibble_eq_spec (c1 c2 c3 c4 : Char)
    (h1 : bin01 c1 = true) (h2 : bin01 c2 = true)
    (h3 : bin01 c3 = true) (h4 : bin01 c4 = true) :
    hexChar (nibbleVal [c1, c2, c3, c4]) =
      specHexDigit (8 * specBit c1 + 4 * specBit c2 + 2 * specBit c3 + specBit c4) := by
  rcases bin01_cases c1 h1 with rfl | rfl <;>
    rcases bin01_cases c2 h2 with rfl | rfl <;>
      rcases bin01_cases c3 h3 with rfl | rfl <;>
        rcases bin01_cases c4 h4 with rfl | rfl <;> decide

/-- On binary digit strings of length divisible by four, the implementation's
chunking agrees with the spec's 4-bit grouping. -/
theorem hexChunks_eq_specGroups (l : List Char) (hlen : l.length % 4 = 0)
    (hall : l.all bin01 = true) : hexChunks l = specGroups l := by
  induction l using hexChunks.induct with
  | case1 c1 c2 c3 c4 rest ih =>
      simp only [List.all_cons, Bool.and_eq_true] at hall
      obtain ⟨hc1, hc2, hc3, hc4, hrest⟩ := hall
      have hlen2 : rest.length % 4 = 0 := by
        simp only [List.length_cons] at hlen; omega
      rw [hexChunks, specGroups, hexChar_nibble_eq_spec c1 c2 c3 c4 hc1 hc2 hc3 hc4,
        ih hlen2 hrest]
  | case2 => rfl
  | case3 rest hmiss hne =>
      exfalso
      rcases rest with _ | ⟨a, _ | ⟨b, _ | ⟨c, _ | ⟨d, t⟩⟩⟩⟩
      · exact hne rfl
      · simp at hlen
      · simp at hlen
      · simp at hlen
      · exact hmiss a b c d t rfl

/-- An `x`/`z` character is not a binary digit. -/
theorem xz_not_bin01 (c : Char) (h : xzChar c = true) : bin01 c = false := by
  simp only [xzChar, Bool.or_eq_true, beq_iff_eq] at h
  rcases h with ((rfl | rfl) | rfl) | rfl <;> decide

/-- C7: the post-pass maps every all-`0`/`1` bus string to the spec's
hexadecimal canonical form (left-pad with `0` to a multiple of four bits, then
one uppercase hex digit per 4-bit group, MSB first); the empty bit string maps
to the empty hex string, `"1"` maps to `"1"`, and a bus string containing any
`x`/`z` character is left untouched. -/
theorem canonicalization_spec (s : List Char) :
    (s.all bin01 = true → canonicalizeValue (.Bus s) = .Bus (specHexCanon s)) ∧
    canonicalizeValue (.Bus []) = .Bus [] ∧
    canonicalizeValue (.Bus ['1']) = .Bus ['1'] ∧
    (s.any xzChar = true → canonicalizeValue (.Bus s) = .Bus s) ∧
    (∀ v : Value, canonicalizeValue (.Binary v) = .Binary v) := by
  refine ⟨?_, by decide, by decide, ?_, fun v => rfl⟩
  · intro hall
    by_cases hnil : s = []
    · subst hnil; decide
    · have hlen : (List.replicate ((4 - s.length % 4) % 4) '0' ++ s).length % 4 = 0 := by
        simp only [List.length_append, List.length_replicate]
        omega
      have hall2 : (List.replicate ((4 - s.length % 4) % 4) '0' ++ s).all bin01 = true := by
        rw [List.all_append, Bool.and_eq_true]
        refine ⟨?_, hall⟩
        rw [List.all_eq_true]
        intro a ha
        rw [List.eq_of_mem_replicate ha]
        decide
      simp only [canonicalizeValue, parse_binary_to_hex, hall, if_true, if_neg hnil]
      simp only [specHexCanon]
      rw [hexChunks_eq_specGroups _ hlen hall2]
  · intro hany
    rw [List.any_eq_true] at hany
    obtain ⟨c, hc, hxz⟩ := hany
    have hfalse : s.all bin01 = false := by
      rw [Bool.eq_false_iff]
      intro hall
      rw [List.all_eq_true] at hall
      have := hall c hc
      rw [xz_not_bin01 c hxz] at this
      exact Bool.false_ne_true this
    simp only [canonicalizeValue, hfalse]
    rfl

/-- C7 witness: `"10100101"` canonicalizes to `"A5"` via the spec form, and
`"1x"` stays raw. -/
theorem canonicalization_spec_witness :
    canonicalizeValue (.Bus ("10100101".toList)) = .Bus ['A', '5'] ∧
    canonicalizeValue (.Bus ['1', 'x']) = .Bus ['1', 'x'] := by
  constructor
  · rw [(canonicalization_spec ("10100101".toList)).1 (by decide)]; decide
  · exact (canonicalization_spec ['1', 'x']).2.2.2.1 (by decide)

/-! ## Claim C4: binary-to-hex round trip -/

/-- On one 4-bit binary group, re-expanding the produced hex digit recovers the
group, and the produced character is an uppercase hex digit. -/
theorem hexCharBits_chunk (c1 c2 c3 c4 : Char)
    (h1 : bin01 c1 = true) (h2 : bin01 c2 = true)
    (h3 : bin01 c3 = true) (h4 : bin01 c4 = true) :
    hexCharBits false (hexChar (nibbleVal [c1, c2, c3, c4])) = [c1, c2, c3, c4] ∧
    hexDigitUp (hexChar (nibbleVal [c1, c2, c3, c4])) = true := by
  rcases bin01_cases c1 h1 with rfl | rfl <;>
    rcases bin01_cases c2 h2 with rfl | rfl <;>
      rcases bin01_cases c3 h3 with rfl | rfl <;>
        rcases bin01_cases c4 h4 with rfl | rfl <;> exact ⟨by decide, by decide⟩

/-- Expanding the hex string produced by the nibble packer recovers the padded
bit string, and that hex string consists of uppercase hex digits. -/
theorem expand_hexChunks (l : List Char) (hlen : l.length % 4 = 0)
    (hall : l.all bin01 = true) :
    expandBits false (hexChunks l) = l ∧ (hexChunks l).all hexDigitUp = true := by
  induction l using hexChunks.induct with
  | case1 c1 c2 c3 c4 rest ih =>
      simp only [List.all_cons, Bool.and_eq_true] at hall
      obtain ⟨hc1, hc2, hc3, hc4, hrest⟩ := hall
      have hlen2 : rest.length % 4 = 0 := by
        simp only [List.length_cons] at hlen; omega
      obtain ⟨ihe, ihd⟩ := ih hlen2 hrest
      obtain ⟨he, hd⟩ := hexCharBits_chunk c1 c2 c3 c4 hc1 hc2 hc3 hc4
      constructor
      · rw [hexChunks, expandBits, he, ihe]; rfl
      · rw [hexChunks, List.all_cons, hd, ihd]; rfl
  | case2 => exact ⟨rfl, rfl⟩
  | case3 rest hmiss hne =>
      exfalso
      rcases rest with _ | ⟨a, _ | ⟨b, _ | ⟨c, _ | ⟨d, t⟩⟩⟩⟩
      · exact hne rfl
      · simp at hlen
      · simp at hlen
      · simp at hlen
      · exact hmiss a b c d t rfl

/-- The nibble value of an all-zero group is zero. -/
theorem nibbleVal_zeros (l : List Char) (h : l.all (fun c => c == '0') = true) :
    nibbleVal l = 0 := by
  induction l with
  | nil => rfl
  | cons c rest ih =>
      simp only [List.all_cons, Bool.and_eq_true, beq_iff_eq] at h
      obtain ⟨rfl, hrest⟩ := h
      have e : nibbleVal ('0' :: rest) = nibbleVal rest := by
        simp [nibbleVal, List.foldl]
      rw [e]
      exact ih hrest

/-- The nibble packer maps an all-zero bit string to an all-`'0'` hex string. -/
theorem hexChunks_zeros (l : List Char) (h : l.all (fun c => c == '0') = true) :
    (hexChunks l).all (fun c => c == '0') = true := by
  induction l using hexChunks.induct with
  | case1 c1 c2 c3 c4 rest ih =>
      simp only [List.all_cons, Bool.and_eq_true, beq_iff_eq] at h
      obtain ⟨rfl, rfl, rfl, rfl, hrest⟩ := h
      rw [hexChunks, List.all_cons, Bool.and_eq_true]
      exact ⟨by decide, ih hrest⟩
  | case2 => rfl
  | case3 rest hmiss hne =>
      rcases rest with _ | ⟨a, _ | ⟨b, _ | ⟨c, _ | ⟨d, t⟩⟩⟩⟩
      · exact absurd rfl hne
      · simp only [List.all_cons, List.all_nil, Bool.and_eq_true, beq_iff_eq] at h
        rw [h.1]; decide
      · simp only [List.all_cons, List.all_nil, Bool.and_eq_true, beq_iff_eq] at h
        rw [h.1, h.2.1]; decide
      · simp only [List.all_cons, List.all_nil, Bool.and_eq_true, beq_iff_eq] at h
        rw [h.1, h.2.1, h.2.2.1]; decide
      · exact absurd rfl (hmiss a b c d t)

/-- All-zero strings are all binary digits. -/
theorem all_zero_imp_bin01 (l : List Char) (h : l.all (fun c => c == '0') = true) :
    l.all bin01 = true := by
  rw [List.all_eq_true] at h ⊢
  intro x hx
  have hx0 := h x hx
  rw [beq_iff_eq] at hx0
  subst hx0
  decide

/-- Binary digits satisfy the binary-looking shortcut test. -/
theorem bin01_imp_binLike (l : List Char) (h : l.all bin01 = true) :
    l.all binLike = true := by
  rw [List.all_eq_true] at h ⊢
  intro x hx
  rcases bin01_cases x (h x hx) with rfl | rfl <;> decide

/-- Lowercase case-normalization is the identity on binary digit strings. -/
theorem map_binCaseDown_id (l : List Char) (h : l.all bin01 = true) :
    l.map binCaseDown = l := by
  induction l with
  | nil => rfl
  | cons c rest ih =>
      simp only [List.all_cons, Bool.and_eq_true] at h
      obtain ⟨hc, hrest⟩ := h
      rw [List.map_cons, ih hrest]
      rcases bin01_cases c hc with rfl | rfl <;> rfl

/-- A hex digit that is not `0`/`1` fails the binary-looking test. -/
theorem binLike_of_hexdigit (c : Char) (hd : hexDigitUp c = true) (hb : bin01 c = false) :
    binLike c = false := by
  rw [Bool.eq_false_iff]
  intro hbl
  simp only [binLike, Bool.or_eq_true, beq_iff_eq] at hbl
  rcases hbl with ((((rfl | rfl) | rfl) | rfl) | rfl) | rfl
  · exact absurd hb (by decide)
  · exact absurd hb (by decide)
  · exact absurd hd (by decide)
  · exact absurd hd (by decide)
  · exact absurd hd (by decide)
  · exact absurd hd (by decide)

/-- `trim_start_matches "0y"` is the identity on hex-digit strings when `y` is
not a hex digit. -/
theorem trimPair_hexdigits (y : Char) (hy : hexDigitUp y = false) (l : List Char)
    (hl : l.all hexDigitUp = true) : trimPair '0' y l = l := by
  rcases l with _ | ⟨x, _ | ⟨y0, rest⟩⟩
  · rfl
  · rfl
  · rw [trimPair, if_neg]
    rintro ⟨rfl, rfl⟩
    simp only [List.all_cons, Bool.and_eq_true] at hl
    rw [hl.2.1] at hy
    exact Bool.false_ne_true hy.symm

/-- Dropping leading zeros ignores the zero padding. -/
theorem dropWhile_zero_replicate (k : Nat) (b : List Char) :
    (List.replicate k '0' ++ b).dropWhile (fun c => c == '0') =
      b.dropWhile (fun c => c == '0') := by
  induction k with
  | zero => rfl
  | succ n ih =>
      rw [List.replicate_succ, List.cons_append, List.dropWhile_cons_of_pos (by decide)]
      exact ih

/-- C4 (amended): canonicalizing a non-empty bit string and re-expanding it to
binary does not pad to a nibble boundary.  When every produced hex digit is
`0`/`1` the renderer's binary-looking shortcut returns the hex string itself;
otherwise the result is the original bit string with its leading zeros
stripped. -/
theorem bin_hex_roundtrip_spec (b h : List Char) (hne : b ≠ [])
    (hall : b.all bin01 = true) (hp : parse_binary_to_hex b = some h) :
    format_string_as_binary h false =
      if h.all bin01 = true then h else b.dropWhile (fun c => c == '0') := by
  simp only [parse_binary_to_hex, if_neg hne, hall, if_true] at hp
  obtain rfl : hexChunks (List.replicate ((4 - b.length % 4) % 4) '0' ++ b) = h :=
    Option.some.inj hp
  set k := (4 - b.length % 4) % 4 with hk
  set pad := List.replicate k '0' ++ b with hpad
  have hlen : pad.length % 4 = 0 := by
    rw [hpad, List.length_append, List.length_replicate, hk]; omega
  have hallpad : pad.all bin01 = true := by
    rw [hpad, List.all_append, Bool.and_eq_true]
    refine ⟨?_, hall⟩
    rw [List.all_eq_true]
    intro a ha
    rw [List.eq_of_mem_replicate ha]
    decide
  obtain ⟨hexp, hdig⟩ := expand_hexChunks pad hlen hallpad
  by_cases h01 : (hexChunks pad).all bin01 = true
  · rw [if_pos h01]
    have hbl := bin01_imp_binLike _ h01
    simp only [format_string_as_binary, hbl, if_true]
    exact map_binCaseDown_id _ h01
  · rw [if_neg h01]
    have hbl : (hexChunks pad).all binLike = false := by
      rw [Bool.eq_false_iff]
      intro hsome
      apply h01
      rw [List.all_eq_true] at hsome hdig ⊢
      intro x hx
      by_cases hb : bin01 x = true
      · exact hb
      · have := binLike_of_hexdigit x (hdig x hx) (Bool.eq_false_iff.2 hb)
        rw [hsome x hx] at this
        exact absurd this.symm Bool.false_ne_true
    have hone : '1' ∈ b := by
      by_contra hno
      have hbz : b.all (fun c => c == '0') = true := by
        rw [List.all_eq_true]
        intro x hx
        have hx01 := (List.all_eq_true.mp hall) x hx
        rcases bin01_cases x hx01 with rfl | rfl
        · rfl
        · exact absurd hx hno
      have hpz : pad.all (fun c => c == '0') = true := by
        rw [hpad, List.all_append, Bool.and_eq_true]
        refine ⟨?_, hbz⟩
        rw [List.all_eq_true]
        intro a ha
        rw [List.eq_of_mem_replicate ha]
        decide
      have hz := hexChunks_zeros pad hpz
      have hb01 := all_zero_imp_bin01 _ hz
      exact h01 hb01
    have hnonnil : b.dropWhile (fun c => c == '0') ≠ [] := by
      rw [Ne, List.dropWhile_eq_nil_iff]
      intro hallzero
      have := hallzero '1' hone
      exact absurd this (by decide)
    unfold format_string_as_binary
    rw [hbl, if_neg Bool.false_ne_true]
    simp only
    rw [trimPair_hexdigits 'x' (by decide) _ hdig,
      trimPair_hexdigits 'X' (by decide) _ hdig, hexp, hpad,
      dropWhile_zero_replicate, if_neg hnonnil]

/-- C4 witness: `"00101010"` canonicalizes to `"2A"` and re-expands to
`"101010"` (leading zeros stripped, not nibble-padded), while `"0001"`
canonicalizes to `"1"` which is returned unchanged by the shortcut. -/
theorem bin_hex_roundtrip_spec_witness :
    format_string_as_binary ['2', 'A'] false = ['1', '0', '1', '0', '1', '0'] ∧
    format_string_as_binary ['1'] false = ['1'] := by
  have h1 := bin_hex_roundtrip_spec ("00101010".toList) ['2', 'A'] (by decide) (by decide)
    (by decide)
  have h2 := bin_hex_roundtrip_spec ['0', '0', '0', '1'] ['1'] (by decide) (by decide)
    (by decide)
  constructor
  · rw [h1]; decide
  · rw [h2]; decide

/-! ## Claim C3: carry-forward invariant of `get_visible_values` -/

/-- The last element of a cons in terms of the tail's last element. -/
theorem getLast?_cons_or {α : Type} (a : α) (l : List α) :
    (a :: l).getLast? =
      match l.getLast? with
      | some x => some x
      | none => some a := by
  cases l with
  | nil => rfl
  | cons b bs =>
      rw [List.getLast?_cons_cons]
      cases h : (b :: bs).getLast? with
      | some x => rfl
      | none => exact absurd (List.getLast?_eq_none_iff.mp h) (List.cons_ne_nil b bs)

/-- The first scan of `get_visible_values` returns the last element of the
strictly-before prefix, or the accumulator when that prefix is empty. -/
theorem lastBeforeLoop_eq (start : Nat) (vs : List (Nat × WaveValue))
    (acc : Option (Nat × WaveValue)) :
    lastBeforeLoop start vs acc =
      match (vs.takeWhile (fun p => p.1 < start)).getLast? with
      | some x => some x
      | none => acc := by
  induction vs generalizing acc with
  | nil => rfl
  | cons q rest ih =>
      obtain ⟨t, v⟩ := q
      by_cases h : t < start
      · rw [lastBeforeLoop, if_pos h, ih,
          List.takeWhile_cons_of_pos (by simpa using h), getLast?_cons_or]
        cases hrest : ((rest.takeWhile fun p => p.1 < start)).getLast? <;> rfl
      · rw [lastBeforeLoop, if_neg h, List.takeWhile_cons_of_neg (by simpa using h)]
        rfl

/-- The scan of `get_value_at_marker` returns the value of the last element of
the at-or-before prefix, or the accumulator when that prefix is empty. -/
theorem valueAtLoop_eq (marker : Nat) (vs : List (Nat × WaveValue))
    (acc : Option WaveValue) :
    valueAtLoop marker vs acc =
      match (vs.takeWhile (fun p => p.1 ≤ marker)).getLast? with
      | some x => some x.2
      | none => acc := by
  induction vs generalizing acc with
  | nil => rfl
  | cons q rest ih =>
      obtain ⟨t, v⟩ := q
      by_cases h : t > marker
      · rw [valueAtLoop, if_pos h,
          List.takeWhile_cons_of_neg (by simp; omega)]
        rfl
      · rw [valueAtLoop, if_neg h, ih,
          List.takeWhile_cons_of_pos (by simp; omega), getLast?_cons_or]
        cases hrest : ((rest.takeWhile fun p => p.1 ≤ marker)).getLast? <;> rfl

/-- On a nondecreasing change log, the strictly-before prefix is the whole set
of strictly-before changes. -/
theorem takeWhile_lt_eq_filter (start : Nat) (vs : List (Nat × WaveValue))
    (hs : List.Pairwise (fun a b => a.1 ≤ b.1) vs) :
    vs.takeWhile (fun p => p.1 < start) = vs.filter (fun p => p.1 < start) := by
  induction vs with
  | nil => rfl
  | cons q rest ih =>
      obtain ⟨hq, hrest⟩ := List.pairwise_cons.mp hs
      by_cases h : q.1 < start
      · rw [List.takeWhile_cons_of_pos (by simpa using h),
          List.filter_cons_of_pos (by simpa using h), ih hrest]
      · rw [List.takeWhile_cons_of_neg (by simpa using h),
          List.filter_cons_of_neg (by simpa using h)]
        symm
        rw [List.filter_eq_nil_iff]
        intro p hp
        have := hq p hp
        simp only [decide_eq_true_eq]
        omega
  
/-- When no change happens exactly at `start`, the at-or-before and
strictly-before prefixes coincide. -/
theorem takeWhile_le_eq_lt (start : Nat) (vs : List (Nat × WaveValue))
    (hne : ∀ p ∈ vs, p.1 ≠ start) :
    vs.takeWhile (fun p => p.1 ≤ start) = vs.takeWhile (fun p => p.1 < start) := by
  induction vs with
  | nil => rfl
  | cons q rest ih =>
      have hq := hne q (List.mem_cons_self q rest)
      by_cases h : q.1 ≤ start
      · have hlt : q.1 < start := lt_of_le_of_ne h hq
        rw [List.takeWhile_cons_of_pos (by simpa using h),
          List.takeWhile_cons_of_pos (by simpa using hlt),
          ih (fun p hp => hne p (List.mem_cons_of_mem q hp))]
      · rw [List.takeWhile_cons_of_neg (by simpa using h),
          List.takeWhile_cons_of_neg (by simp; omega)]

/-- C3 (amended): for a displayed signal with a nondecreasing change log and at
least one change strictly before the window start `s`, `get_visible_values`
starts with the synthetic entry `(s, v)` where `v` is the value of the *last
change strictly before `s`*; this equals `value_at(signal, s)` whenever no
change occurs at exactly time `s` (a change exactly at `s` with a new value
makes the two differ). -/
theorem visible_values_carry_forward (st : AppState) (signal : List Char)
    (vs : List (Nat × WaveValue))
    (hd : st.displayed_signals.contains signal = true)
    (hv : lookupA st.waveform_data.values signal = some vs)
    (hs : List.Pairwise (fun a b => a.1 ≤ b.1) vs)
    (hb : ∃ p ∈ vs, p.1 < st.time_start) :
    ∃ t0 v, (get_visible_values st signal).head? = some (st.time_start, v) ∧
      lastChangeBefore st.time_start vs = some (t0, v) ∧
      ((∀ p ∈ vs, p.1 ≠ st.time_start) →
        get_value_at_marker st signal st.time_start = some v) := by
  have hfne : vs.filter (fun p => p.1 < st.time_start) ≠ [] := by
    obtain ⟨p, hp, hlt⟩ := hb
    exact List.ne_nil_of_mem (List.mem_filter.mpr ⟨hp, by simpa using hlt⟩)
  obtain ⟨⟨t0, v⟩, hlast⟩ : ∃ x, (vs.filter (fun p => p.1 < st.time_start)).getLast? = some x := by
    cases h : (vs.filter (fun p => p.1 < st.time_start)).getLast? with
    | some x => exact ⟨x, rfl⟩
    | none => exact absurd (List.getLast?_eq_none_iff.mp h) hfne
  refine ⟨t0, v, ?_, ?_, ?_⟩
  · simp only [get_visible_values, hd, Bool.not_true, Bool.false_eq_true, if_false, hv]
    rw [lastBeforeLoop_eq, takeWhile_lt_eq_filter _ _ hs, hlast]
    rfl
  · simpa only [lastChangeBefore] using hlast
  · intro hne
    simp only [get_value_at_marker, hv]
    rw [valueAtLoop_eq, takeWhile_le_eq_lt _ _ hne, takeWhile_lt_eq_filter _ _ hs, hlast]

/-- C3 witness: log `[(0, V0), (20, V1)]`, window `[10, 30)`: the first entry
is `(10, V0)` and `value_at(sig1, 10) = V0`. -/
theorem visible_values_carry_forward_witness :
    ∃ t0 v, (get_visible_values carryOkState ("sig1".toList)).head? = some (10, v) ∧
      lastChangeBefore 10 [(0, WaveValue.Binary Value.V0), (20, WaveValue.Binary Value.V1)] =
        some (t0, v) ∧
      ((∀ p ∈ [(0, WaveValue.Binary Value.V0), (20, WaveValue.Binary Value.V1)], p.1 ≠ 10) →
        get_value_at_marker carryOkState ("sig1".toList) 10 = some v) :=
  visible_values_carry_forward carryOkState ("sig1".toList)
    [(0, WaveValue.Binary Value.V0), (20, WaveValue.Binary Value.V1)]
    (by decide) (by decide)
    (by simp)
    ⟨(0, WaveValue.Binary Value.V0), by simp, by decide⟩

/-! ## Claim C8: `get_transition_at_marker` -/

/-- Decomposing "some adjacent pair of `q :: rest` hits the marker" into a hit
at the head (predecessor `q`) or a hit inside the tail. -/
theorem adjacent_hit_cons (t : Nat) (q : Nat × WaveValue) (rest : List (Nat × WaveValue)) :
    (∃ pre a b post, q :: rest = pre ++ a :: b :: post ∧ b.1 = t ∧
        values_equal a.2 b.2 = false) ↔
      ((∃ b post, rest = b :: post ∧ b.1 = t ∧ values_equal q.2 b.2 = false) ∨
       (∃ pre a b post, rest = pre ++ a :: b :: post ∧ b.1 = t ∧
          values_equal a.2 b.2 = false)) := by
  constructor
  · rintro ⟨pre, a, b, post, heq, hb, hne⟩
    cases pre with
    | nil =>
        rw [List.nil_append] at heq
        injection heq with h1 h2
        subst h1; subst h2
        exact Or.inl ⟨b, post, rfl, hb, hne⟩
    | cons q' pre' =>
        rw [List.cons_append] at heq
        injection heq with h1 h2
        subst h1; subst h2
        exact Or.inr ⟨pre', a, b, post, rfl, hb, hne⟩
  · rintro (⟨b, post, rfl, hb, hne⟩ | ⟨pre, a, b, post, rfl, hb, hne⟩)
    · exact ⟨[], q, b, post, rfl, hb, hne⟩
    · exact ⟨q :: pre, a, b, post, rfl, hb, hne⟩

/-- The scan of `get_transition_at_marker` finds a transition exactly when some
entry at time `t`, preceded by the accumulator or an earlier entry, differs
from its predecessor. -/
theorem transScan_isSome_iff (t : Nat) (vs : List (Nat × WaveValue)) :
    ∀ prev : Option WaveValue,
      (transScan t prev vs).isSome = true ↔
        ((∃ pv, prev = some pv ∧ ∃ b post, vs = b :: post ∧ b.1 = t ∧
            values_equal pv b.2 = false) ∨
         (∃ pre a b post, vs = pre ++ a :: b :: post ∧ b.1 = t ∧
            values_equal a.2 b.2 = false)) := by
  induction vs with
  | nil =>
      intro prev
      constructor
      · intro h
        cases prev <;> simp [transScan] at h
      · rintro (⟨pv, _, b, post, heq, _⟩ | ⟨pre, a, b, post, heq, _⟩)
        · exact absurd heq (List.cons_ne_nil b post).symm
        · exact absurd heq (by simp)
  | cons q rest ih =>
      intro prev
      obtain ⟨t0, v0⟩ := q
      cases prev with
      | none =>
          rw [transScan, ih (some v0)]
          constructor
          · rintro (⟨pv, hpv, b, post, rfl, hb, hne⟩ | h2)
            · injection hpv with hpv
              subst hpv
              exact Or.inr ((adjacent_hit_cons t (t0, v0) _).mpr (Or.inl ⟨b, post, rfl, hb, hne⟩))
            · exact Or.inr ((adjacent_hit_cons t (t0, v0) _).mpr (Or.inr h2))
          · rintro (⟨pv, hpv, _⟩ | h2)
            · exact absurd hpv (by simp)
            · rcases (adjacent_hit_cons t (t0, v0) rest).mp h2 with ⟨b, post, rfl, hb, hne⟩ | h3
              · exact Or.inl ⟨v0, rfl, b, post, rfl, hb, hne⟩
              · exact Or.inr h3
      | some pv =>
          by_cases hhit : t0 = t ∧ values_equal pv v0 = false
          · rw [transScan, if_pos hhit]
            simp only [Option.isSome_some, true_iff]
            exact Or.inl ⟨pv, rfl, (t0, v0), rest, rfl, hhit.1, hhit.2⟩
          · rw [transScan, if_neg hhit, ih (some v0)]
            constructor
            · rintro (⟨pv', hpv, b, post, rfl, hb, hne⟩ | h2)
              · injection hpv with hpv
                subst hpv
                exact Or.inr
                  ((adjacent_hit_cons t (t0, v0) _).mpr (Or.inl ⟨b, post, rfl, hb, hne⟩))
              · exact Or.inr ((adjacent_hit_cons t (t0, v0) _).mpr (Or.inr h2))
            · rintro (⟨pv', hpv, b, post, heq, hb, hne⟩ | h2)
              · injection hpv with hpv
                subst hpv
                injection heq with h1 h2
                subst h1; subst h2
                exact absurd ⟨hb, hne⟩ hhit
              · rcases (adjacent_hit_cons t (t0, v0) rest).mp h2 with ⟨b, post, rfl, hb, hne⟩ | h3
                · exact Or.inl ⟨v0, rfl, b, post, rfl, hb, hne⟩
                · exact Or.inr h3

/-- C8: `transition_at` returns a transition string exactly when the signal is
known and its log contains an entry with time exactly `t` that is not the
first entry and whose value strictly differs (cross-variant pairs always
differ and format as `"???"`) from the immediately preceding entry; on the log
`[(0,V0),(10,V1),(20,V0)]` it returns `"V0->V1"` at `t = 10` and `none` at
`t = 0`. -/
theorem transition_at_marker_spec (st : AppState) (signal : List Char) (t : Nat) :
    ((get_transition_at_marker st signal t).isSome = true ↔
      ∃ vs, lookupA st.waveform_data.values signal = some vs ∧
        ∃ pre a b post, vs = pre ++ a :: b :: post ∧ b.1 = t ∧
          values_equal a.2 b.2 = false) ∧
    (∀ (v : Value) (s : List Char), values_equal (.Binary v) (.Bus s) = false ∧
      format_transition (.Binary v) (.Bus s) = ['?', '?', '?']) ∧
    get_transition_at_marker clkState ("clk".toList) 10 = some ("V0->V1".toList) ∧
    get_transition_at_marker clkState ("clk".toList) 0 = none := by
  refine ⟨?_, fun v s => ⟨rfl, rfl⟩, by decide, by decide⟩
  cases hl : lookupA st.waveform_data.values signal with
  | none =>
      simp only [get_transition_at_marker, hl]
      constructor
      · intro h; simp at h
      · rintro ⟨vs, hvs, _⟩
        exact absurd hvs (by simp)
  | some vs =>
      simp only [get_transition_at_marker, hl]
      rw [transScan_isSome_iff t vs none]
      constructor
      · rintro (⟨pv, hpv, _⟩ | h2)
        · exact absurd hpv (by simp)
        · exact ⟨vs, rfl, h2⟩
      · rintro ⟨vs', hvs, h2⟩
        injection hvs with hvs
        subst hvs
        exact Or.inr h2

/-! ## Claim C2: `max_time` is the last body timestamp -/

/-- Two patterns with different head characters cannot both be prefixes. -/
theorem lw_head_ne (c d : Char) (cs ds l : List Char) (hcd : c ≠ d)
    (h : leadsWith (c :: cs) l = true) : leadsWith (d :: ds) l = false := by
  cases l with
  | nil => simp [leadsWith] at h
  | cons b bs =>
      simp only [leadsWith, Bool.and_eq_true, beq_iff_eq] at h
      have hd : (d == b) = false := by
        rw [beq_eq_false_iff_ne]
        rw [← h.1]
        exact fun hh => hcd hh.symm
      simp only [leadsWith, hd, Bool.false_and]

/-- Two patterns sharing a head but differing in the second character cannot
both be prefixes. -/
theorem lw_second_ne (c c1 d1 : Char) (cs ds l : List Char) (hne : c1 ≠ d1)
    (h : leadsWith (c :: c1 :: cs) l = true) : leadsWith (c :: d1 :: ds) l = false := by
  cases l with
  | nil => simp [leadsWith] at h
  | cons b bs =>
      cases bs with
      | nil => simp [leadsWith] at h
      | cons b1 bs1 =>
          simp only [leadsWith, Bool.and_eq_true, beq_iff_eq] at h
          have hd : (d1 == b1) = false := by
            rw [beq_eq_false_iff_ne]
            rw [← h.2.1]
            exact fun hh => hne hh.symm
          simp only [leadsWith, hd, Bool.false_and, Bool.and_false]

/-- `$var`-prefixed lines are not `$enddefinitions` lines. -/
theorem var_not_enddefs (line : List Char) (h : leadsWith ("$var".toList) line = true) :
    leadsWith ("$enddefinitions".toList) line = false := by
  have e1 : ("$var".toList) = '$' :: 'v' :: ['a', 'r'] := rfl
  have e2 : ("$enddefinitions".toList) = '$' :: 'e' :: ("nddefinitions".toList) := rfl
  rw [e1] at h
  rw [e2]
  exact lw_second_ne '$' 'v' 'e' _ _ line (by decide) h

/-- `$scope`-prefixed lines are not `$enddefinitions` lines. -/
theorem scope_not_enddefs (line : List Char) (h : leadsWith ("$scope".toList) line = true) :
    leadsWith ("$enddefinitions".toList) line = false := by
  have e1 : ("$scope".toList) = '$' :: 's' :: ("cope".toList) := rfl
  have e2 : ("$enddefinitions".toList) = '$' :: 'e' :: ("nddefinitions".toList) := rfl
  rw [e1] at h
  rw [e2]
  exact lw_second_ne '$' 's' 'e' _ _ line (by decide) h

/-- `$upscope`-prefixed lines are not `$enddefinitions` lines. -/
theorem upscope_not_enddefs (line : List Char) (h : leadsWith ("$upscope".toList) line = true) :
    leadsWith ("$enddefinitions".toList) line = false := by
  have e1 : ("$upscope".toList) = '$' :: 'u' :: ("pscope".toList) := rfl
  have e2 : ("$enddefinitions".toList) = '$' :: 'e' :: ("nddefinitions".toList) := rfl
  rw [e1] at h
  rw [e2]
  exact lw_second_ne '$' 'u' 'e' _ _ line (by decide) h

/-- A `$`-prefixed line is not a `#` timestamp line. -/
theorem dollar_not_hash (pat line : List Char)
    (h : leadsWith ('$' :: pat) line = true) : leadsWith ['#'] line = false :=
  lw_head_ne '$' '#' pat [] line (by decide) h

/-- Only `$enddefinitions` lines change the `in_definitions` flag. -/
theorem processLine_in_defs (st : ParserState) (l : List Char) :
    (processLine st l).in_definitions =
      if leadsWith ("$enddefinitions".toList) (trimChars l) = true then false
      else st.in_definitions := by
  simp only [processLine]
  by_cases h1 : leadsWith ("$var".toList) (trimChars l) = true
  · have h4f : ¬(leadsWith ("$enddefinitions".toList) (trimChars l) = true) := by
      rw [var_not_enddefs _ h1]; exact Bool.false_ne_true
    rw [if_pos h1, if_neg h4f]
    cases parse_var_declaration (trimChars l) <;> rfl
  · rw [if_neg h1]
    by_cases h2 : leadsWith ("$scope".toList) (trimChars l) = true
    · have h4f : ¬(leadsWith ("$enddefinitions".toList) (trimChars l) = true) := by
        rw [scope_not_enddefs _ h2]; exact Bool.false_ne_true
      rw [if_pos h2, if_neg h4f]
      cases parse_scope_declaration (trimChars l) <;> rfl
    · rw [if_neg h2]
      by_cases h3 : leadsWith ("$upscope".toList) (trimChars l) = true
      · have h4f : ¬(leadsWith ("$enddefinitions".toList) (trimChars l) = true) := by
          rw [upscope_not_enddefs _ h3]; exact Bool.false_ne_true
        rw [if_pos h3, if_neg h4f]
        by_cases hsc : st.current_scope ≠ []
        · rw [if_pos hsc]
        · rw [if_neg hsc]
      · rw [if_neg h3]
        by_cases h4 : leadsWith ("$enddefinitions".toList) (trimChars l) = true
        · rw [if_pos h4, if_pos h4]
        · rw [if_neg h4, if_neg h4]
          by_cases h5 : leadsWith ("$dumpvars".toList) (trimChars l) = true
          · rw [if_pos h5]
          · rw [if_neg h5]
            by_cases h6 : (leadsWith ("$end".toList) (trimChars l) && st.in_dumpvars) = true
            · rw [if_pos h6]
            · rw [if_neg h6]
              by_cases h7 : (!st.in_definitions && leadsWith ['#'] (trimChars l)) = true
              · rw [if_pos h7]
                cases parse_time_stamp (trimChars l) <;> rfl
              · rw [if_neg h7]
                by_cases h8 : (!st.in_definitions && !(trimChars l).isEmpty &&
                    !leadsWith ['$'] (trimChars l)) = true
                · rw [if_pos h8]
                  split <;> (first | rfl | (split <;> rfl))
                · rw [if_neg h8]

/-- Only processed body timestamp lines change `current_time`. -/
theorem processLine_current_time (st : ParserState) (l : List Char) :
    (processLine st l).current_time =
      if leadsWith ("$enddefinitions".toList) (trimChars l) = true then st.current_time
      else if (!st.in_definitions && leadsWith ['#'] (trimChars l)) = true then
        match parse_time_stamp (trimChars l) with
        | some tv => tv
        | none => st.current_time
      else st.current_time := by
  simp only [processLine]
  by_cases h1 : leadsWith ("$var".toList) (trimChars l) = true
  · have h4f : ¬(leadsWith ("$enddefinitions".toList) (trimChars l) = true) := by
      rw [var_not_enddefs _ h1]; exact Bool.false_ne_true
    have h7f : ¬((!st.in_definitions && leadsWith ['#'] (trimChars l)) = true) := by
      rw [dollar_not_hash ("var".toList) (trimChars l) h1, Bool.and_false]
      exact Bool.false_ne_true
    rw [if_pos h1, if_neg h4f, if_neg h7f]
    cases parse_var_declaration (trimChars l) <;> rfl
  · rw [if_neg h1]
    by_cases h2 : leadsWith ("$scope".toList) (trimChars l) = true
    · have h4f : ¬(leadsWith ("$enddefinitions".toList) (trimChars l) = true) := by
        rw [scope_not_enddefs _ h2]; exact Bool.false_ne_true
      have h7f : ¬((!st.in_definitions && leadsWith ['#'] (trimChars l)) = true) := by
        rw [dollar_not_hash ("scope".toList) (trimChars l) h2, Bool.and_false]
        exact Bool.false_ne_true
      rw [if_pos h2, if_neg h4f, if_neg h7f]
      cases parse_scope_declaration (trimChars l) <;> rfl
    · rw [if_neg h2]
      by_cases h3 : leadsWith ("$upscope".toList) (trimChars l) = true
      · have h4f : ¬(leadsWith ("$enddefinitions".toList) (trimChars l) = true) := by
          rw [upscope_not_enddefs _ h3]; exact Bool.false_ne_true
        have h7f : ¬((!st.in_definitions && leadsWith ['#'] (trimChars l)) = true) := by
          rw [dollar_not_hash ("upscope".toList) (trimChars l) h3, Bool.and_false]
          exact Bool.false_ne_true
        rw [if_pos h3, if_neg h4f, if_neg h7f]
        by_cases hsc : st.current_scope ≠ []
        · rw [if_pos hsc]
        · rw [if_neg hsc]
      · rw [if_neg h3]
        by_cases h4 : leadsWith ("$enddefinitions".toList) (trimChars l) = true
        · rw [if_pos h4, if_pos h4]
        · rw [if_neg h4, if_neg h4]
          by_cases h5 : leadsWith ("$dumpvars".toList) (trimChars l) = true
          · have h7f : ¬((!st.in_definitions && leadsWith ['#'] (trimChars l)) = true) := by
              rw [dollar_not_hash ("dumpvars".toList) (trimChars l) h5, Bool.and_false]
              exact Bool.false_ne_true
            rw [if_pos h5, if_neg h7f]
          · rw [if_neg h5]
            by_cases h6 : (leadsWith ("$end".toList) (trimChars l) && st.in_dumpvars) = true
            · have h6l : leadsWith ("$end".toList) (trimChars l) = true := by
                rw [Bool.and_eq_true] at h6; exact h6.1
              have h7f : ¬((!st.in_definitions && leadsWith ['#'] (trimChars l)) = true) := by
                rw [dollar_not_hash ("end".toList) (trimChars l) h6l, Bool.and_false]
                exact Bool.false_ne_true
              rw [if_pos h6, if_neg h7f]
            · rw [if_neg h6]
              by_cases h7 : (!st.in_definitions && leadsWith ['#'] (trimChars l)) = true
              · rw [if_pos h7, if_pos h7]
                cases parse_time_stamp (trimChars l) <;> rfl
              · rw [if_neg h7, if_neg h7]
                by_cases h8 : (!st.in_definitions && !(trimChars l).isEmpty &&
                    !leadsWith ['$'] (trimChars l)) = true
                · rw [if_pos h8]
                  split <;> (first | rfl | (split <;> rfl))
                · rw [if_neg h8]

/-- The running `current_time` of the parse loop is the last processed body
timestamp, defaulting to its initial value. -/
theorem foldl_current_time (lines : List (List Char)) : ∀ st : ParserState,
    (lines.foldl processLine st).current_time =
      (bodyTimestamps st.in_definitions lines).getLast?.getD st.current_time := by
  induction lines with
  | nil => intro st; rfl
  | cons l rest ih =>
      intro st
      rw [List.foldl_cons, ih (processLine st l)]
      rw [processLine_in_defs, processLine_current_time]
      simp only [bodyTimestamps]
      by_cases h4 : leadsWith ("$enddefinitions".toList) (trimChars l) = true
      · rw [if_pos h4, if_pos h4, if_pos h4]
      · rw [if_neg h4, if_neg h4, if_neg h4]
        by_cases h7 : (!st.in_definitions && leadsWith ['#'] (trimChars l)) = true
        · rw [if_pos h7, if_pos h7]
          cases hts : parse_time_stamp (trimChars l) with
          | some tv =>
              rw [getLast?_cons_or]
              cases (bodyTimestamps st.in_definitions rest).getLast? <;> rfl
          | none => rfl
        · rw [if_neg h7, if_neg h7]

/-- C2 (amended): the `max_time` of the returned `WaveformData` is the value of
the *last* timestamp line processed in the body (`0` when there is none) — the
maximum only when timestamps are nondecreasing. -/
theorem parse_vcd_max_time_last (lines : List (List Char)) :
    (parse_vcd_file lines).max_time = (bodyTimestamps true lines).getLast?.getD 0 :=
  foldl_current_time lines initParserState

/-! ## Claim C10: change-log keys are registered signal names -/

/-- The change-log keys are values of the identifier table. -/
def KeysReg (st : ParserState) : Prop :=
  ∀ k ∈ st.values.map (fun kv => kv.1), k ∈ st.id_to_name.map (fun kv => kv.2)

/-- Inserting an absent key appends it. -/
theorem imInsert_append_of_none {β : Type} (k : List Char) (v : β)
    (m : List (List Char × β)) (h : lookupA m k = none) :
    imInsert k v m = m ++ [(k, v)] := by
  induction m with
  | nil => rfl
  | cons kv rest ih =>
      obtain ⟨k0, v0⟩ := kv
      by_cases hk : k0 = k
      · rw [lookupA, if_pos hk] at h
        exact absurd h (by simp)
      · rw [lookupA, if_neg hk] at h
        rw [imInsert, if_neg hk, ih h]
        rfl

/-- Re-inserting the value a key already has is the identity. -/
theorem imInsert_self_of_some {β : Type} (k : List Char) (v : β)
    (m : List (List Char × β)) (h : lookupA m k = some v) :
    imInsert k v m = m := by
  induction m with
  | nil => simp [lookupA] at h
  | cons kv rest ih =>
      obtain ⟨k0, v0⟩ := kv
      by_cases hk : k0 = k
      · rw [lookupA, if_pos hk] at h
        injection h with h
        rw [imInsert, if_pos hk, h]
      · rw [lookupA, if_neg hk] at h
        rw [imInsert, if_neg hk, ih h]

/-- A looked-up value is among the table's values. -/
theorem lookupA_some_mem {β : Type} (m : List (List Char × β)) (k : List Char) (v : β)
    (h : lookupA m k = some v) : v ∈ m.map (fun kv => kv.2) := by
  induction m with
  | nil => simp [lookupA] at h
  | cons kv rest ih =>
      obtain ⟨k0, v0⟩ := kv
      by_cases hk : k0 = k
      · rw [lookupA, if_pos hk] at h
        injection h with h
        rw [List.map_cons, h]
        exact List.mem_cons_self _ _
      · rw [lookupA, if_neg hk] at h
        exact List.mem_cons_of_mem _ (ih h)

/-- Appending a change introduces at most the pushed key. -/
theorem pushValue_keys (k : List Char) (tv : Nat × WaveValue)
    (vals : List (List Char × List (Nat × WaveValue))) :
    ∀ x ∈ (pushValue k tv vals).map (fun kv => kv.1),
      x ∈ vals.map (fun kv => kv.1) ∨ x = k := by
  induction vals with
  | nil =>
      intro x hx
      simp [pushValue] at hx
      exact Or.inr hx
  | cons kv rest ih =>
      obtain ⟨k0, vs⟩ := kv
      intro x hx
      by_cases hk : k0 = k
      · rw [pushValue, if_pos hk] at hx
        simp only [List.map_cons] at hx ⊢
        exact Or.inl hx
      · rw [pushValue, if_neg hk] at hx
        simp only [List.map_cons] at hx ⊢
        rcases List.mem_cons.mp hx with rfl | hx2
        · exact Or.inl (List.mem_cons_self _ _)
        · rcases ih x hx2 with h | h
          · exact Or.inl (List.mem_cons_of_mem _ h)
          · exact Or.inr h

/-- One non-renaming line keeps every change-log key registered. -/
theorem processLine_keys (st : ParserState) (l : List Char)
    (hr : lineRenames st l = false) (hinv : KeysReg st) : KeysReg (processLine st l) := by
  simp only [processLine]
  repeat' split
  all_goals try exact hinv
  · rename_i h1 x vd heq
    intro k hk
    have hk2 := hinv k hk
    cases hl : lookupA st.id_to_name vd.id with
    | none =>
        show k ∈ (imInsert vd.id (fullName st.current_scope vd.name) st.id_to_name).map
          (fun kv => kv.2)
        rw [imInsert_append_of_none _ _ _ hl, List.map_append]
        exact List.mem_append_left _ hk2
    | some old =>
        have hfull : old = fullName st.current_scope vd.name := by
          simp only [lineRenames, h1, heq, hl, if_true, decide_eq_false_iff_not] at hr
          exact not_ne_iff.mp hr
        show k ∈ (imInsert vd.id (fullName st.current_scope vd.name) st.id_to_name).map
          (fun kv => kv.2)
        rw [← hfull, imInsert_self_of_some _ _ _ hl]
        exact hk2
  · rename_i wv id hparse x name hlook
    intro k hk
    rcases pushValue_keys name (st.current_time, wv) st.values k hk with h | rfl
    · exact hinv k h
    · exact lookupA_some_mem _ _ _ hlook

/-- Running the loop over rename-free input keeps every change-log key
registered. -/
theorem foldl_keys (lines : List (List Char)) : ∀ st : ParserState,
    checkNoRename st lines = true → KeysReg st →
      KeysReg (lines.foldl processLine st) := by
  induction lines with
  | nil => intro st _ h; exact h
  | cons l rest ih =>
      intro st hc hinv
      rw [checkNoRename, Bool.and_eq_true] at hc
      obtain ⟨hr1, hc2⟩ := hc
      have hrf : lineRenames st l = false := by
        cases hln : lineRenames st l
        · rfl
        · rw [hln] at hr1
          exact absurd hr1 (by decide)
      rw [List.foldl_cons]
      exact ih (processLine st l) hc2 (processLine_keys st l hrf hinv)

/-- C10 (amended): when no `$var` line re-registers an identifier under a
different full name, every key of the returned change-log map is the full
hierarchical name of a `$var`-declared signal, i.e. an element of the returned
signals list (value changes with unregistered identifiers are dropped and
create neither a change-log entry nor a signal). -/
theorem changelog_keys_spec (lines : List (List Char))
    (h : checkNoRename initParserState lines = true) :
    ∀ k ∈ (parse_vcd_file lines).values.map Prod.fst,
      k ∈ (parse_vcd_file lines).signals := by
  have hinv0 : KeysReg initParserState := by
    intro k hk
    simp [initParserState] at hk
  have hfin := foldl_keys lines initParserState h hinv0
  intro k hk
  simp only [parse_vcd_file, List.map_map] at hk
  exact hfin k hk

/-- C10 witness: a plain scoped declaration with one change. -/
theorem changelog_keys_spec_witness :
    checkNoRename initParserState plainLines = true ∧
    ∀ k ∈ (parse_vcd_file plainLines).values.map Prod.fst,
      k ∈ (parse_vcd_file plainLines).signals :=
  ⟨by decide, changelog_keys_spec plainLines (by decide)⟩
